import Mathlib

/-!
Shallow embedding of the `cs5100_blackjack` repository: the Blackjack
environment (`blackjack.py`), the Monte Carlo exploring-starts agent
(`montecarlo.py`) and the tabular Q-Learning agent (`qlearning.py`),
together with theorems settling the specification claims.

Conventions of the embedding:
* A card is a (rank, suit) pair, mirroring the `{'number': ..., 'suit': ...}`
  dictionaries of the source.
* The deck is a `List Card`; Python's `list.pop()` removes the LAST element,
  so dealing takes `getLast?` and keeps `dropLast`.
* Fallible operations (an indexing error on an empty deck, Python's
  `ZeroDivisionError`) are modelled with `Except String`.
* Python floats are modelled with `ℚ`; every arithmetic step the claims
  touch is exact at the values involved.
-/

/-- Card ranks, the `'number'` field of a card dictionary:
`'2' .. '10', 'J', 'Q', 'K', 'A'`. -/
inductive Rank where
  | two | three | four | five | six | seven | eight | nine | ten
  | J | Q | K | A
  deriving DecidableEq, Repr

/-- Card suits. -/
inductive Suit where
  | hearts | diamonds | clubs | spades
  deriving DecidableEq, Repr

/-- A playing card: the dictionary `{'number': rank, 'suit': suit}`. -/
structure Card where
  number : Rank
  suit : Suit
  deriving DecidableEq, Repr

/-- Mutable state of one `BlackjackGame` instance: the deck and the two
hands. -/
structure BlackjackGame where
  deck : List Card
  player_hand : List Card
  dealer_hand : List Card
  deriving DecidableEq, Repr

deriving instance DecidableEq for Except

/-- The `numbers` list of `generate_deck`. -/
def deckNumbers : List Rank :=
  [.two, .three, .four, .five, .six, .seven, .eight, .nine, .ten, .J, .Q, .K, .A]

/-- The `suits` list of `generate_deck`. -/
def deckSuits : List Suit := [.hearts, .diamonds, .clubs, .spades]

/-- `BlackjackGame.generate_deck`: the list comprehension
`[{'number': n, 'suit': s} for n in numbers for s in suits]`. -/
def generate_deck : List Card :=
  deckNumbers.flatMap (fun number => deckSuits.map (fun suit => ⟨number, suit⟩))

/-- `BlackjackGame.deal_card`: `self.deck.pop()` removes and returns the
last element of the deck; an empty deck raises `IndexError`. -/
def deal_card (g : BlackjackGame) : Except String (Card × BlackjackGame) :=
  match g.deck.getLast? with
  | none => .error "IndexError"
  | some c => .ok (c, { g with deck := g.deck.dropLast })

/-- `BlackjackGame.start_game`: deals two cards to the player, then two to
the dealer, replacing both hands. -/
def start_game (g : BlackjackGame) : Except String BlackjackGame :=
  match deal_card g with
  | .error e => .error e
  | .ok (c1, g1) =>
    match deal_card g1 with
    | .error e => .error e
    | .ok (c2, g2) =>
      match deal_card g2 with
      | .error e => .error e
      | .ok (c3, g3) =>
        match deal_card g3 with
        | .error e => .error e
        | .ok (c4, g4) =>
          .ok { g4 with player_hand := [c1, c2], dealer_hand := [c3, c4] }

/-- The per-card contribution of the accumulation loop of `hand_value`:
`J`, `Q`, `K` add 10, an ace adds 11, a numeric rank adds its number. -/
def card_points : Rank → ℕ
  | .two => 2 | .three => 3 | .four => 4 | .five => 5 | .six => 6
  | .seven => 7 | .eight => 8 | .nine => 9 | .ten => 10
  | .J => 10 | .Q => 10 | .K => 10
  | .A => 11

/-- The ace-adjustment loop of `hand_value`:
`while value > 21 and aces: value -= 10; aces -= 1`. -/
def soften : ℕ → ℕ → ℕ
  | value, 0 => value
  | value, aces + 1 => if 21 < value then soften (value - 10) aces else value

/-- `BlackjackGame.hand_value`: accumulate the card values and the ace
count in one pass, then soften aces while the total exceeds 21. -/
def hand_value (hand : List Card) : ℕ :=
  let p := hand.foldl
    (fun (acc : ℕ × ℕ) c =>
      (acc.1 + card_points c.number,
       if c.number = Rank.A then acc.2 + 1 else acc.2))
    (0, 0)
  soften p.1 p.2

/-- `BlackjackGame.game_status`: `player_bust` above 21, `player_blackjack`
at exactly 21, otherwise `continue`. -/
def game_status (player_hand : List Card) : String :=
  let player_value := hand_value player_hand
  if 21 < player_value then "player_bust"
  else if player_value = 21 then "player_blackjack"
  else "continue"

/-- `BlackjackGame.player_action`: on `"hit"` draw one card into the player
hand; any other action string performs no mutation; either way the call
returns `game_status()`. -/
def player_action (g : BlackjackGame) (action : String) :
    Except String (BlackjackGame × String) :=
  if action = "hit" then
    match deal_card g with
    | .error e => .error e
    | .ok (c, g1) =>
      let g2 := { g1 with player_hand := g1.player_hand ++ [c] }
      .ok (g2, game_status g2.player_hand)
  else
    .ok (g, game_status g.player_hand)

theorem deal_card_deck_lt {g : BlackjackGame} {c : Card} {g1 : BlackjackGame}
    (h : deal_card g = .ok (c, g1)) : g1.deck.length < g.deck.length := by
  unfold deal_card at h
  cases hl : g.deck.getLast? with
  | none => rw [hl] at h; exact absurd h (by simp)
  | some c0 =>
    rw [hl] at h
    have hne : g.deck ≠ [] := by
      intro hnil; rw [hnil] at hl; exact absurd hl (by simp)
    have hpos : 0 < g.deck.length := List.length_pos.mpr hne
    cases h
    simpa [List.length_dropLast] using Nat.sub_lt hpos Nat.one_pos

/-- `BlackjackGame.dealer_action`: draw while the dealer hand value is
below 17. Each iteration pops one card off the deck, so the recursion is
well-founded on the deck length; an exhausted deck raises `IndexError`. -/
def dealer_action (g : BlackjackGame) : Except String BlackjackGame :=
  if hand_value g.dealer_hand < 17 then
    match hd : deal_card g with
    | .error e => .error e
    | .ok (c, g1) =>
      dealer_action { g1 with dealer_hand := g1.dealer_hand ++ [c] }
  else
    .ok g
termination_by g.deck.length
decreasing_by
  simpa using deal_card_deck_lt hd

/-- `BlackjackGame.game_result`: run the dealer, then compare the final
hand values. -/
def game_result (g : BlackjackGame) : Except String (BlackjackGame × String) :=
  match dealer_action g with
  | .error e => .error e
  | .ok g1 =>
    let player_value := hand_value g1.player_hand
    let dealer_value := hand_value g1.dealer_hand
    if 21 < player_value then .ok (g1, "loss")
    else if 21 < dealer_value ∨ dealer_value < player_value then .ok (g1, "win")
    else if player_value = dealer_value then .ok (g1, "draw")
    else .ok (g1, "loss")

/-- The dealer up-card conversion used by `qlearning.py` (`train`, `play`)
and `montecarlo.py` (`play`): `J`, `Q`, `K` map to 10, `A` to 11, a numeric
rank to its literal value. -/
def dealer_card_value (r : Rank) : ℕ :=
  if r ∈ [Rank.J, Rank.Q, Rank.K, Rank.A] then
    (if r ≠ Rank.A then 10 else 11)
  else
    card_points r

/-- `has_usable_ace` as written identically in `montecarlo.py` and
`qlearning.py`: one pass accumulating
`value += min(10, int(n) if n not in [J,Q,K,A] else 11)` and
`ace |= (n == A)`, then `int(ace and value + 10 <= 21)`.
(`card_points` agrees with Python's `int` on the numeric ranks, the only
ones reaching that branch.) -/
def has_usable_ace (hand : List Card) : ℕ :=
  let p := hand.foldl
    (fun (acc : ℕ × Bool) c =>
      (acc.1 + min 10 (if c.number ∈ [Rank.J, Rank.Q, Rank.K, Rank.A]
                       then 11 else card_points c.number),
       acc.2 || decide (c.number = Rank.A)))
    (0, false)
  if p.2 ∧ p.1 + 10 ≤ 21 then 1 else 0

/-- The Q-Learning value table `self.Q`, a dense array indexed by
(player_sum, dealer_card, usable_ace, action index); entries default
to 0. -/
def QTable : Type := ℕ × ℕ × ℕ × ℕ → ℚ

/-- `BlackjackQLearning.update`: the in-place Q-table assignment
`Q[s,a] = old + alpha * (reward + gamma * np.max(Q[s']) - old)`, where
`np.max(Q[s'])` ranges over the two action entries at the next state. -/
def ql_update (Q : QTable) (alpha gamma : ℚ)
    (player_sum dealer_card usable_ace : ℕ) (action : String) (reward : ℚ)
    (new_player_sum new_dealer_card new_usable_ace : ℕ) : QTable :=
  let action_idx : ℕ := if action = "hit" then 0 else 1
  let old_value := Q (player_sum, dealer_card, usable_ace, action_idx)
  let future_max :=
    max (Q (new_player_sum, new_dealer_card, new_usable_ace, 0))
        (Q (new_player_sum, new_dealer_card, new_usable_ace, 1))
  fun k =>
    if k = (player_sum, dealer_card, usable_ace, action_idx) then
      old_value + alpha * (reward + gamma * future_max - old_value)
    else Q k

/-- `BlackjackQLearning.choose_action`: explore via
`np.random.uniform(0,1) < epsilon` (the drawn uniform is the parameter
`u`, the coin behind `np.random.choice` is `randHit`), else pick `hit`
exactly when its stored value strictly exceeds the `stay` value. -/
def choose_action (Q : QTable) (epsilon u : ℚ) (randHit : Bool)
    (player_sum dealer_card usable_ace : ℕ) : String :=
  if u < epsilon then
    (if randHit then "hit" else "stay")
  else if Q (player_sum, dealer_card, usable_ace, 1)
          < Q (player_sum, dealer_card, usable_ace, 0) then "hit"
  else "stay"

/-- The state triple built by `MonteCarloWithExploringStarts.generate_episode`:
`(hand_value(player), dealer_hand[0]['number'], 'A' in player ranks)`. The
middle component is the raw rank and the last is bare ace presence. -/
def MCState : Type := ℕ × Rank × Bool

instance : DecidableEq MCState := by
  unfold MCState
  infer_instance

/-- The Monte Carlo agent's mutable fields: `Q` (defaultdict of
insertion-ordered action dictionaries), `returns` (defaultdict of lists)
and `policy` (defaultdict with `None` default). -/
structure MCAgent where
  Q : MCState → List (String × ℚ)
  ret : MCState × String → List ℤ
  policy : MCState → Option String

/-- The freshly constructed agent: all three defaultdicts empty. -/
def MCAgent.init : MCAgent :=
  ⟨fun _ => [], fun _ => [], fun _ => none⟩

/-- Python dict assignment `d[k] = v` on an insertion-ordered association
list: overwrite in place if the key exists, else append. -/
def setQ : List (String × ℚ) → String → ℚ → List (String × ℚ)
  | [], k, v => [(k, v)]
  | (k1, v1) :: rest, k, v =>
    if k1 = k then (k1, v) :: rest else (k1, v1) :: setQ rest k v

/-- Python dict lookup `d.get(k)` on the association list. -/
def getQ : List (String × ℚ) → String → Option ℚ
  | [], _ => none
  | (k1, v1) :: rest, k => if k1 = k then some v1 else getQ rest k

/-- One step of Python's `max(..., key=...)` scan: keep the incumbent
unless the next entry is strictly greater. -/
def maxFrom (best : String × ℚ) : List (String × ℚ) → String × ℚ
  | [] => best
  | x :: xs => maxFrom (if best.2 < x.2 then x else best) xs

/-- `max(self.Q[state], key=self.Q[state].get)`: the first key of maximal
value in iteration (= insertion) order; `none` on an empty dict (where
Python raises). -/
def max_key : List (String × ℚ) → Option String
  | [] => none
  | x :: xs => some (maxFrom x xs).1

/-- The body of the per-pair update loop in
`MonteCarloWithExploringStarts.train`: append `G` to the pair's return
list, overwrite `Q[state][action]` with the mean of that list, and point
the policy at `max(Q[state], key=...)`. -/
def mc_update_pair (G : ℤ) (A : MCAgent) (sa : MCState × String) : MCAgent :=
  let rets := A.ret sa ++ [G]
  let mean : ℚ := (rets.sum : ℚ) / (rets.length : ℚ)
  let newQs := setQ (A.Q sa.1) sa.2 mean
  { Q := fun s => if s = sa.1 then newQs else A.Q s
    ret := fun k => if k = sa then rets else A.ret k
    policy := fun s => if s = sa.1 then max_key newQs else A.policy s }

/-- The terminal signal of `MonteCarloWithExploringStarts.train`:
`G = 1 if result == "win" else -1`. -/
def mcG (result : String) : ℤ :=
  if result = "win" then 1 else -1

/-- The per-episode tail of `MonteCarloWithExploringStarts.train`: compute
`G`, then run the pair loop over the episode in order. -/
def mc_train_episode (A : MCAgent) (episode : List (MCState × String))
    (result : String) : MCAgent :=
  episode.foldl (fun a sa => mc_update_pair (mcG result) a sa) A

/-- The state read in `generate_episode`:
`(game.hand_value(player), game.dealer_hand[0]['number'],
'A' in [card['number'] for card in player])`; indexing an empty dealer
hand raises. -/
def mc_state (g : BlackjackGame) : Except String MCState :=
  match g.dealer_hand.head? with
  | none => .error "IndexError"
  | some c =>
    .ok (hand_value g.player_hand, c.number,
         g.player_hand.any (fun cc => decide (cc.number = Rank.A)))

theorem player_action_hit_deck_lt {g g1 : BlackjackGame} {s : String}
    (h : player_action g "hit" = .ok (g1, s)) :
    g1.deck.length < g.deck.length := by
  unfold player_action at h
  rw [if_pos rfl] at h
  cases hd : deal_card g with
  | error e => rw [hd] at h; exact absurd h (by simp)
  | ok p =>
    obtain ⟨c0, g2⟩ := p
    rw [hd] at h
    cases h
    simpa using deal_card_deck_lt hd

/-- The `while game.game_status() == "continue"` loop of
`generate_episode`: hit while the chosen action is `hit`, re-read the
state, consult the policy, and append the (state, action) pair. Each
iteration pops one card, so recursion is on the deck length. -/
def mc_episode_loop (A : MCAgent) (episode : List (MCState × String))
    (action : String) (g : BlackjackGame) :
    Except String (List (MCState × String) × BlackjackGame) :=
  if game_status g.player_hand = "continue" then
    if action = "hit" then
      match hp : player_action g "hit" with
      | .error e => .error e
      | .ok (g1, _) =>
        match mc_state g1 with
        | .error e => .error e
        | .ok st =>
          let action1 := match A.policy st with
            | some a => a
            | none => action
          mc_episode_loop A (episode ++ [(st, action1)]) action1 g1
    else .ok (episode, g)
  else .ok (episode, g)
termination_by g.deck.length
decreasing_by
  simpa using player_action_hit_deck_lt hp

/-- `MonteCarloWithExploringStarts.generate_episode`: start the game
(re-dealing both hands), read the initial state, seed the episode with the
exploring-start action (`random.choice(["hit", "stay"])`, the coin being
`firstHit`), run the loop, then call `game_result`. -/
def generate_episode (A : MCAgent) (firstHit : Bool) (g : BlackjackGame) :
    Except String (List (MCState × String) × String × BlackjackGame) :=
  match start_game g with
  | .error e => .error e
  | .ok g1 =>
    match mc_state g1 with
    | .error e => .error e
    | .ok st0 =>
      let action := if firstHit then "hit" else "stay"
      match mc_episode_loop A [(st0, action)] action g1 with
      | .error e => .error e
      | .ok (episode, g2) =>
        match game_result g2 with
        | .error e => .error e
        | .ok (g3, result) => .ok (episode, result, g3)

theorem choose_action_cases (Q : QTable) (epsilon u : ℚ) (randHit : Bool)
    (player_sum dealer_card usable_ace : ℕ) :
    choose_action Q epsilon u randHit player_sum dealer_card usable_ace = "hit" ∨
    choose_action Q epsilon u randHit player_sum dealer_card usable_ace = "stay" := by
  unfold choose_action
  split_ifs <;> simp

/-- Python's `%` on integers, raising `ZeroDivisionError` on a zero
modulus (the divisor sign conventions agree with `Int.emod` for the
positive moduli used here). -/
def pymod (a b : ℤ) : Except String ℤ :=
  if b = 0 then .error "ZeroDivisionError" else .ok (a % b)

/-- Python 3's built-in `round` on the exact value of its argument:
round half to even (banker's rounding). -/
def round_half_even (q : ℚ) : ℤ :=
  if q - ⌊q⌋ < 1 / 2 then ⌊q⌋
  else if 1 / 2 < q - ⌊q⌋ then ⌊q⌋ + 1
  else if ⌊q⌋ % 2 = 0 then ⌊q⌋ else ⌊q⌋ + 1

/-- The `while status == "continue"` loop of `BlackjackQLearning.train`.
`last` carries the Python loop variables
`(player_sum, usable_ace, action, new_player_sum, new_usable_ace)` that
survive the loop for the final update; `u`/`randHit` are the random draws
behind `choose_action`, indexed by the step counter `t`. A non-`stay`
action is a hit and pops a card, so recursion is on the deck length. -/
def ql_loop (alpha gamma epsilon : ℚ) (u : ℕ → ℚ) (randHit : ℕ → Bool)
    (dealer_card : ℕ) (Q : QTable) (status : String)
    (last : ℕ × ℕ × String × ℕ × ℕ) (g : BlackjackGame) (t : ℕ) :
    Except String (QTable × (ℕ × ℕ × String × ℕ × ℕ) × String × BlackjackGame) :=
  if status = "continue" then
    let player_sum := hand_value g.player_hand
    let usable_ace := has_usable_ace g.player_hand
    match ha : choose_action Q epsilon (u t) (randHit t)
        player_sum dealer_card usable_ace with
    | action =>
      match hp : player_action g action with
      | .error e => .error e
      | .ok (g1, status1) =>
        let new_player_sum := hand_value g1.player_hand
        let new_usable_ace := has_usable_ace g1.player_hand
        let reward : ℚ :=
          if status1 = "player_blackjack" then 1
          else if status1 = "player_bust" then -1
          else 0
        let Q1 :=
          if reward ≠ 0 then
            ql_update Q alpha gamma player_sum dealer_card usable_ace action
              reward new_player_sum dealer_card new_usable_ace
          else Q
        let tuple := (player_sum, usable_ace, action, new_player_sum,
          new_usable_ace)
        if hstay : action = "stay" then .ok (Q1, tuple, status1, g1)
        else
          ql_loop alpha gamma epsilon u randHit dealer_card Q1 status1 tuple
            g1 (t + 1)
  else
    .ok (Q, last, status, g)
termination_by g.deck.length
decreasing_by
  have hhit : action = "hit" := by
    rcases choose_action_cases Q epsilon (u t) (randHit t)
      (hand_value g.player_hand) dealer_card (has_usable_ace g.player_hand)
      with hc | hc
    · rw [ha] at hc; exact hc
    · rw [ha] at hc; exact absurd hc hstay
  rw [hhit] at hp
  simpa using player_action_hit_deck_lt hp

/-- One episode of `BlackjackQLearning.train` starting at index `ep`:
construct and start a fresh game, evaluate the `ep % one_percent` progress
check, convert the dealer up-card once, run the player loop, then apply
the final-outcome update. -/
def ql_train_go (alpha gamma epsilon : ℚ) (u : ℕ → ℕ → ℚ)
    (randHit : ℕ → ℕ → Bool) (decks : ℕ → List Card) (one_percent : ℤ)
    (episodes : ℕ) (Q : QTable) (ep : ℕ) : Except String QTable :=
  if ep < episodes then
    match start_game ⟨decks ep, [], []⟩ with
    | .error e => .error e
    | .ok g1 =>
      match pymod ep one_percent with
      | .error e => .error e
      | .ok _ =>
        match g1.dealer_hand.head? with
        | none => .error "IndexError"
        | some c0 =>
          let dealer_card := dealer_card_value c0.number
          match ql_loop alpha gamma epsilon (u ep) (randHit ep) dealer_card Q
              "continue" (0, 0, "", 0, 0) g1 0 with
          | .error e => .error e
          | .ok (Q1, (player_sum, usable_ace, action, new_player_sum,
              new_usable_ace), _, g2) =>
            match game_result g2 with
            | .error e => .error e
            | .ok (_, final_result) =>
              let final_reward : ℚ :=
                if final_result = "win" then 1
                else if final_result = "loss" then -1
                else 0
              let Q2 := ql_update Q1 alpha gamma player_sum dealer_card
                usable_ace action final_reward new_player_sum dealer_card
                new_usable_ace
              ql_train_go alpha gamma epsilon u randHit decks one_percent
                episodes Q2 (ep + 1)
  else
    .ok Q
termination_by episodes - ep
decreasing_by
  omega

/-- `BlackjackQLearning.train`: `one_percent = round(episodes / 100)`,
then the episode loop from `ep = 0` on the zero-initialised table. -/
def ql_train (alpha gamma epsilon : ℚ) (u : ℕ → ℕ → ℚ)
    (randHit : ℕ → ℕ → Bool) (decks : ℕ → List Card) (episodes : ℕ) :
    Except String QTable :=
  ql_train_go alpha gamma epsilon u randHit decks
    (round_half_even ((episodes : ℚ) / 100)) episodes (fun _ => 0) 0

/-- One episode of `MonteCarloWithExploringStarts.train` starting at
index `ep`: construct and start a fresh game, evaluate the
`ep % one_percent` progress check, generate an episode (which re-deals the
same game), then run the per-pair update loop. -/
def mc_train_go (firstHit : ℕ → Bool) (decks : ℕ → List Card)
    (one_percent : ℤ) (episodes : ℕ) (A : MCAgent) (ep : ℕ) :
    Except String MCAgent :=
  if ep < episodes then
    match start_game ⟨decks ep, [], []⟩ with
    | .error e => .error e
    | .ok g1 =>
      match pymod ep one_percent with
      | .error e => .error e
      | .ok _ =>
        match generate_episode A (firstHit ep) g1 with
        | .error e => .error e
        | .ok (episode, result, _) =>
          mc_train_go firstHit decks one_percent episodes
            (mc_train_episode A episode result) (ep + 1)
  else
    .ok A
termination_by episodes - ep
decreasing_by
  omega

/-- `MonteCarloWithExploringStarts.train`:
`one_percent = round(episodes / 100)`, then the episode loop from `ep = 0`
on the freshly initialised agent. -/
def mc_train (firstHit : ℕ → Bool) (decks : ℕ → List Card) (episodes : ℕ) :
    Except String MCAgent :=
  mc_train_go firstHit decks (round_half_even ((episodes : ℚ) / 100))
    episodes MCAgent.init 0

/-- Stated from the claim's wording for comparison with the code: the
one-step temporal-difference equation
`Q[state,a] <- Q[state,a] + alpha * (reward + gamma * max Q[nextState] - Q[state,a])`,
the maximum ranging over both actions, all other entries untouched. -/
def td_update_claim (Q : QTable) (alpha gamma : ℚ) (state : ℕ × ℕ × ℕ)
    (action_idx : ℕ) (reward : ℚ) (next_state : ℕ × ℕ × ℕ) : QTable :=
  fun k =>
    if k = (state.1, state.2.1, state.2.2, action_idx) then
      Q (state.1, state.2.1, state.2.2, action_idx)
        + alpha * (reward
            + gamma * max (Q (next_state.1, next_state.2.1, next_state.2.2, 0))
                          (Q (next_state.1, next_state.2.1, next_state.2.2, 1))
            - Q (state.1, state.2.1, state.2.2, action_idx))
    else Q k

/-- Stated from the claim's wording for comparison with the code: the
result of comparing the final player and dealer values — player above 21
loses; otherwise dealer above 21 or player strictly ahead wins; equal
values draw; anything else loses. -/
def game_result_claim (player_value dealer_value : ℕ) : String :=
  if 21 < player_value then "loss"
  else if 21 < dealer_value ∨ dealer_value < player_value then "win"
  else if player_value = dealer_value then "draw"
  else "loss"
/-- Dealing `k` cards in sequence: `k` iterated calls of `deal_card`
within one game, collecting the dealt cards in order. -/
def deal_n : ℕ → BlackjackGame → Except String (List Card × BlackjackGame)
  | 0, g => .ok ([], g)
  | k + 1, g =>
    match deal_card g with
    | .error e => .error e
    | .ok (c, g1) =>
      match deal_n k g1 with
      | .error e => .error e
      | .ok (cs, g2) => .ok (c :: cs, g2)
/-- Stated from the claim's wording for comparison with the code: the
usable-ace flag is 1 exactly when the hand holds an ace that is currently
counted as 11 without the hand exceeding 21 — that is, an ace is present
and the all-aces-low sum still fits under 21 with one ace raised to 11. -/
def claimed_usable_ace (hand : List Card) : ℕ :=
  let low := (hand.map
    (fun c => if c.number = Rank.A then 1 else card_points c.number)).sum
  if hand.any (fun c => decide (c.number = Rank.A)) ∧ low + 10 ≤ 21 then 1
  else 0

/-- Stated from the claim's wording for comparison with the code: the
agent-facing state triple (player hand value, dealer's visible card as a
numeric value in 2..11 with J/Q/K as 10 and A as 11, usable-ace flag). -/
def claimed_state (g : BlackjackGame) : Except String (ℕ × ℕ × ℕ) :=
  match g.dealer_hand.head? with
  | none => .error "IndexError"
  | some c =>
    .ok (hand_value g.player_hand, dealer_card_value c.number,
         claimed_usable_ace g.player_hand)
/-- The property the Monte Carlo policy update is claimed to establish:
`a` is a stored action whose stored value is a maximum over the state's
action dictionary. -/
def is_max_action (l : List (String × ℚ)) (a : String) : Prop :=
  ∃ v : ℚ, getQ l a = some v ∧ ∀ p ∈ l, p.2 ≤ v

/-- C1: the Q-Learning agent's `update` coincides, at every state, action,
reward and next state, with the one-step temporal-difference equation: the
updated entry becomes the old value plus alpha times (reward plus gamma
times the maximum over both actions at the next state, minus the old
value), and every other entry is left unchanged. -/
theorem c1_ql_update_is_td (Q : QTable) (alpha gamma : ℚ)
    (player_sum dealer_card usable_ace : ℕ) (action : String) (reward : ℚ)
    (new_player_sum new_dealer_card new_usable_ace : ℕ) :
    ql_update Q alpha gamma player_sum dealer_card usable_ace action reward
        new_player_sum new_dealer_card new_usable_ace
      = td_update_claim Q alpha gamma (player_sum, dealer_card, usable_ace)
          (if action = "hit" then 0 else 1) reward
          (new_player_sum, new_dealer_card, new_usable_ace) := by
  funext k
  rfl

theorem dealer_action_stand {g : BlackjackGame}
    (h : ¬ hand_value g.dealer_hand < 17) : dealer_action g = .ok g := by
  rw [dealer_action]
  simp [h]

theorem dealer_action_hit {g : BlackjackGame} {c : Card} {g1 : BlackjackGame}
    (h : hand_value g.dealer_hand < 17) (hd : deal_card g = .ok (c, g1)) :
    dealer_action g
      = dealer_action { g1 with dealer_hand := g1.dealer_hand ++ [c] } := by
  rw [dealer_action]
  rw [if_pos h]
  split
  · rename_i e heq
    rw [hd] at heq
    exact absurd heq (by simp)
  · rename_i c2 g2 heq
    rw [hd] at heq
    cases heq
    rfl

theorem dealer_action_exhausted {g : BlackjackGame}
    (h : hand_value g.dealer_hand < 17) (hd : g.deck = []) :
    dealer_action g = .error "IndexError" := by
  rw [dealer_action]
  rw [if_pos h]
  have hdc : deal_card g = .error "IndexError" := by
    unfold deal_card
    rw [hd]
    rfl
  split
  · rename_i e heq
    rw [hdc] at heq
    cases heq
    rfl
  · rename_i c2 g2 heq
    rw [hdc] at heq
    exact absurd heq (by simp)

/-- C3: `game_result` first runs the dealer's draws and then returns the
comparison of the final values exactly as the claim orders the branches;
in particular player 22 versus dealer 19 yields `loss`, player 20 versus
dealer 19 yields `win`, and player 19 versus dealer 19 yields `draw`. -/
theorem c3_game_result_compare :
    (∀ g g1 : BlackjackGame, dealer_action g = .ok g1 →
      game_result g = .ok (g1, game_result_claim (hand_value g1.player_hand)
        (hand_value g1.dealer_hand)))
    ∧ game_result ⟨[], [⟨.K, .spades⟩, ⟨.Q, .spades⟩, ⟨.two, .spades⟩],
          [⟨.ten, .hearts⟩, ⟨.nine, .hearts⟩]⟩
        = .ok (⟨[], [⟨.K, .spades⟩, ⟨.Q, .spades⟩, ⟨.two, .spades⟩],
          [⟨.ten, .hearts⟩, ⟨.nine, .hearts⟩]⟩, "loss")
    ∧ game_result ⟨[], [⟨.K, .spades⟩, ⟨.Q, .hearts⟩],
          [⟨.ten, .hearts⟩, ⟨.nine, .hearts⟩]⟩
        = .ok (⟨[], [⟨.K, .spades⟩, ⟨.Q, .hearts⟩],
          [⟨.ten, .hearts⟩, ⟨.nine, .hearts⟩]⟩, "win")
    ∧ game_result ⟨[], [⟨.K, .spades⟩, ⟨.nine, .spades⟩],
          [⟨.ten, .hearts⟩, ⟨.nine, .hearts⟩]⟩
        = .ok (⟨[], [⟨.K, .spades⟩, ⟨.nine, .spades⟩],
          [⟨.ten, .hearts⟩, ⟨.nine, .hearts⟩]⟩, "draw") := by
  refine ⟨fun g g1 h => ?_, ?_, ?_, ?_⟩
  · unfold game_result
    rw [h]
    simp only [game_result_claim]
    split_ifs <;> rfl
  · unfold game_result
    rw [dealer_action_stand (by decide)]
    decide
  · unfold game_result
    rw [dealer_action_stand (by decide)]
    decide
  · unfold game_result
    rw [dealer_action_stand (by decide)]
    decide

/-- Witness for C3: the general branch description instantiated at the
concrete 20-versus-19 game. -/
theorem c3_game_result_compare_witness :
    game_result ⟨[], [⟨.K, .clubs⟩, ⟨.Q, .clubs⟩],
        [⟨.ten, .diamonds⟩, ⟨.nine, .diamonds⟩]⟩
      = .ok (⟨[], [⟨.K, .clubs⟩, ⟨.Q, .clubs⟩],
          [⟨.ten, .diamonds⟩, ⟨.nine, .diamonds⟩]⟩,
        game_result_claim
          (hand_value [⟨.K, .clubs⟩, ⟨.Q, .clubs⟩])
          (hand_value [⟨.ten, .diamonds⟩, ⟨.nine, .diamonds⟩])) :=
  c3_game_result_compare.1 _ _ (dealer_action_stand (by decide))

/-- C5 counterexample: with the player holding ace plus king (value 21),
`player_action` on `"stay"` returns `player_blackjack`, not `continue`,
refuting the claim that a stay always returns `continue`. -/
theorem c5_counterexample_stay_at_21 :
    player_action ⟨[], [⟨.A, .spades⟩, ⟨.K, .spades⟩], []⟩ "stay"
        = .ok (⟨[], [⟨.A, .spades⟩, ⟨.K, .spades⟩], []⟩, "player_blackjack")
    ∧ player_action ⟨[], [⟨.A, .spades⟩, ⟨.K, .spades⟩], []⟩ "stay"
        ≠ .ok (⟨[], [⟨.A, .spades⟩, ⟨.K, .spades⟩], []⟩, "continue") := by
  constructor
  · decide
  · decide

/-- C5 (amended): `player_action` on `"stay"` leaves the deck and both
hands unchanged and returns the current game status; when the player's
hand value is below 21 that status is `continue`. -/
theorem c5_stay_frame (g : BlackjackGame) :
    player_action g "stay" = .ok (g, game_status g.player_hand)
    ∧ (hand_value g.player_hand < 21 →
        player_action g "stay" = .ok (g, "continue")) := by
  constructor
  · unfold player_action
    rw [if_neg (by decide : ¬("stay" = "hit"))]
  · intro h
    unfold player_action game_status
    rw [if_neg (by decide : ¬("stay" = "hit"))]
    have h1 : ¬ 21 < hand_value g.player_hand := by omega
    have h2 : ¬ hand_value g.player_hand = 21 := by omega
    simp only [h1, h2, if_false]

/-- Witness for C5: the amended statement applied to a concrete game with
player value 2. -/
theorem c5_stay_frame_witness :
    hand_value [(⟨.two, .spades⟩ : Card)] < 21
    ∧ player_action ⟨[], [⟨.two, .spades⟩], []⟩ "stay"
        = .ok (⟨[], [⟨.two, .spades⟩], []⟩, "continue") :=
  ⟨by decide, (c5_stay_frame ⟨[], [⟨.two, .spades⟩], []⟩).2 (by decide)⟩

/-- C6 counterexample: the action string `"foo"`, outside `{hit, stay}`,
is silently absorbed — the call succeeds with the ordinary status instead
of failing with an invalid-action error. -/
theorem c6_counterexample_invalid_absorbed :
    player_action ⟨[], [⟨.two, .spades⟩, ⟨.three, .hearts⟩], []⟩ "foo"
      = .ok (⟨[], [⟨.two, .spades⟩, ⟨.three, .hearts⟩], []⟩, "continue") := by
  decide

/-- C6 (amended): every action string other than `"hit"` — in particular
every string outside `{hit, stay}` — is silently absorbed: no mutation
occurs, no error is raised, and the call returns the current game
status. -/
theorem c6_invalid_action_absorbed (g : BlackjackGame) (action : String)
    (h : action ≠ "hit") :
    player_action g action = .ok (g, game_status g.player_hand) := by
  unfold player_action
  rw [if_neg h]

/-- Witness for C6: the amended statement applied to the action
`"double"` on a concrete game. -/
theorem c6_invalid_action_absorbed_witness :
    player_action ⟨[], [⟨.two, .spades⟩, ⟨.three, .hearts⟩], []⟩ "double"
      = .ok (⟨[], [⟨.two, .spades⟩, ⟨.three, .hearts⟩], []⟩,
          game_status [⟨.two, .spades⟩, ⟨.three, .hearts⟩]) :=
  c6_invalid_action_absorbed ⟨[], [⟨.two, .spades⟩, ⟨.three, .hearts⟩], []⟩
    "double" (by decide)

theorem deal_n_spec : ∀ (k : ℕ) (g : BlackjackGame), k ≤ g.deck.length →
    deal_n k g = .ok (g.deck.reverse.take k,
      ⟨(g.deck.reverse.drop k).reverse, g.player_hand, g.dealer_hand⟩) := by
  intro k
  induction k with
  | zero =>
    intro g _
    simp [deal_n]
  | succ k ih =>
    intro g hk
    have hne : g.deck ≠ [] := by
      intro h
      rw [h] at hk
      simp at hk
    cases hr : g.deck.reverse with
    | nil => exact absurd (by simpa using hr) hne
    | cons c t =>
      have hdeck : g.deck = t.reverse ++ [c] := by
        have := congrArg List.reverse hr
        simpa using this
      have hdc : deal_card g = .ok (c, { g with deck := t.reverse }) := by
        unfold deal_card
        rw [hdeck]
        simp
      have hlen1 : k ≤ t.reverse.length := by
        have : g.deck.length = t.length + 1 := by
          rw [hdeck]; simp
        simp only [List.length_reverse]
        omega
      have hrec := ih { g with deck := t.reverse } hlen1
      simp only [deal_n, hdc, hrec]
      simp [hr]

/-- C7: a freshly generated deck holds exactly 52 distinct (rank, suit)
cards, and for every shuffle of it, dealing `k ≤ 52` cards within one
game leaves exactly `52 - k` cards, still without duplicates, with no
dealt card remaining in the deck. -/
theorem c7_deck_invariants :
    generate_deck.length = 52
    ∧ generate_deck.Nodup
    ∧ ∀ d : List Card, d.Perm generate_deck → ∀ k : ℕ, k ≤ 52 →
        ∀ ph dh : List Card, ∃ dealt rest : List Card,
          deal_n k ⟨d, ph, dh⟩ = .ok (dealt, ⟨rest, ph, dh⟩)
          ∧ dealt.length = k
          ∧ rest.length = 52 - k
          ∧ rest.Nodup
          ∧ ∀ c ∈ dealt, c ∉ rest := by
  refine ⟨by decide, by decide, ?_⟩
  intro d hp k hk ph dh
  have hlen : d.length = 52 := by
    have := hp.length_eq
    simpa using this
  have hnd : d.Nodup := hp.nodup_iff.mpr (by decide)
  have hndr : d.reverse.Nodup := List.nodup_reverse.mpr hnd
  refine ⟨d.reverse.take k, (d.reverse.drop k).reverse,
    deal_n_spec k ⟨d, ph, dh⟩ (by simpa using hlen ▸ hk), ?_, ?_, ?_, ?_⟩
  · simp
    omega
  · simp
    omega
  · exact List.nodup_reverse.mpr (hndr.sublist (List.drop_sublist k d.reverse))
  · intro c hc hcr
    have hcd : c ∈ d.reverse.drop k := by simpa using hcr
    exact (List.disjoint_take_drop hndr (le_refl k)) hc hcd

/-- Witness for C7: dealing two cards from the unshuffled fresh deck. -/
theorem c7_deck_invariants_witness :
    ∃ dealt rest : List Card,
      deal_n 2 ⟨generate_deck, [], []⟩ = .ok (dealt, ⟨rest, [], []⟩)
      ∧ dealt.length = 2
      ∧ rest.length = 52 - 2
      ∧ rest.Nodup
      ∧ ∀ c ∈ dealt, c ∉ rest :=
  c7_deck_invariants.2.2 generate_deck (List.Perm.refl _) 2 (by norm_num) [] []

theorem hand_fold_spec (hand : List Card) : ∀ v a : ℕ,
    hand.foldl
      (fun (acc : ℕ × ℕ) c =>
        (acc.1 + card_points c.number,
         if c.number = Rank.A then acc.2 + 1 else acc.2)) (v, a)
    = (v + (hand.map (fun c => card_points c.number)).sum,
       a + hand.countP (fun c => decide (c.number = Rank.A))) := by
  induction hand with
  | nil => intro v a; simp
  | cons c t ih =>
    intro v a
    rw [List.foldl_cons, ih]
    by_cases h : c.number = Rank.A
    · simp [h, List.countP_cons]
      constructor <;> omega
    · simp [h, List.countP_cons]
      omega

theorem hand_value_eq_soften (hand : List Card) :
    hand_value hand
      = soften ((hand.map (fun c => card_points c.number)).sum)
          (hand.countP (fun c => decide (c.number = Rank.A))) := by
  unfold hand_value
  rw [hand_fold_spec hand 0 0]
  simp

/-- C8: `hand_value` is invariant under permutation of the card sequence —
it depends only on the multiset of cards, being the softening of the raw
sum and the ace count, both of which are order-independent. -/
theorem c8_hand_value_perm_invariant (h1 h2 : List Card) (hp : h1.Perm h2) :
    hand_value h1 = hand_value h2 := by
  rw [hand_value_eq_soften, hand_value_eq_soften]
  rw [(hp.map (fun c => card_points c.number)).sum_eq,
      hp.countP_eq (fun c => decide (c.number = Rank.A))]

/-- Witness for C8: swapping the two cards of an ace-king hand leaves the
value at 21. -/
theorem c8_hand_value_perm_invariant_witness :
    hand_value [(⟨.A, .spades⟩ : Card), ⟨.K, .spades⟩]
      = hand_value [(⟨.K, .spades⟩ : Card), ⟨.A, .spades⟩] :=
  c8_hand_value_perm_invariant _ _
    (List.Perm.swap (⟨.K, .spades⟩ : Card) ⟨.A, .spades⟩ [])

theorem deal_card_error_eq {g : BlackjackGame} {e : String}
    (h : deal_card g = .error e) : e = "IndexError" ∧ g.deck = [] := by
  unfold deal_card at h
  cases hl : g.deck.getLast? with
  | none =>
    rw [hl] at h
    cases h
    exact ⟨rfl, by simpa using hl⟩
  | some c =>
    rw [hl] at h
    exact absurd h (by simp)

theorem dealer_action_total_aux : ∀ n : ℕ, ∀ g : BlackjackGame,
    g.deck.length ≤ n →
    (∃ g1 : BlackjackGame, dealer_action g = .ok g1
        ∧ 17 ≤ hand_value g1.dealer_hand ∧ g1.deck.length ≤ g.deck.length)
    ∨ dealer_action g = .error "IndexError" := by
  intro n
  induction n with
  | zero =>
    intro g hg
    by_cases h17 : hand_value g.dealer_hand < 17
    · right
      have hnil : g.deck = [] := by
        cases hd : g.deck with
        | nil => rfl
        | cons c t => rw [hd] at hg; simp at hg
      exact dealer_action_exhausted h17 hnil
    · left
      exact ⟨g, dealer_action_stand h17, by omega, le_refl _⟩
  | succ n ih =>
    intro g hg
    by_cases h17 : hand_value g.dealer_hand < 17
    · cases hd : deal_card g with
      | error e =>
        right
        obtain ⟨he, hnil⟩ := deal_card_error_eq hd
        exact dealer_action_exhausted h17 hnil
      | ok p =>
        obtain ⟨c, g1⟩ := p
        have hstep := dealer_action_hit h17 hd
        have hlt : g1.deck.length < g.deck.length := deal_card_deck_lt hd
        have hrec := ih { g1 with dealer_hand := g1.dealer_hand ++ [c] }
          (by simp; omega)
        rcases hrec with ⟨g2, hok, hval, hdeck⟩ | herr
        · left
          refine ⟨g2, by rw [hstep]; exact hok, hval, ?_⟩
          simp at hdeck
          omega
        · right
          rw [hstep]
          exact herr
    · left
      exact ⟨g, dealer_action_stand h17, by omega, le_refl _⟩

/-- C9 counterexample: drawing a king into the hand ace-five leaves the
value at 16 — a draw does not strictly increase the dealer's hand value,
refuting the claim's stated reason for termination. -/
theorem c9_counterexample_draw_not_increasing :
    hand_value [(⟨.A, .spades⟩ : Card), ⟨.five, .hearts⟩] = 16
    ∧ hand_value [(⟨.A, .spades⟩ : Card), ⟨.five, .hearts⟩, ⟨.K, .diamonds⟩]
        = 16
    ∧ ¬ (hand_value [(⟨.A, .spades⟩ : Card), ⟨.five, .hearts⟩, ⟨.K, .diamonds⟩]
          > hand_value [(⟨.A, .spades⟩ : Card), ⟨.five, .hearts⟩]) := by
  refine ⟨by decide, by decide, by decide⟩

/-- C9 (amended): `dealer_action` draws exactly while the dealer hand
value is below 17 and always terminates — not because each draw strictly
increases the value (it need not), but because each draw consumes a card
from the finite deck: every run ends either normally with dealer value at
least 17 and a deck no longer than before, or in the exhausted-deck
error. -/
theorem c9_dealer_action_terminates (g : BlackjackGame) :
    (∃ g1 : BlackjackGame, dealer_action g = .ok g1
        ∧ 17 ≤ hand_value g1.dealer_hand ∧ g1.deck.length ≤ g.deck.length)
    ∨ dealer_action g = .error "IndexError" :=
  dealer_action_total_aux g.deck.length g (le_refl _)

/-- C4: at the concrete position player = A 5 9 (value 15, the ace already
counted as 1) against a dealer showing J, `generate_episode` reads the
state `(15, rank J, true)` — the raw rank instead of the numeric value 10,
and bare ace presence instead of the usable-ace flag, which the claim
requires to be 0 here. Moreover the play-time flag `has_usable_ace`
deviates from the claimed flag already on the hand A 5 (a genuinely usable
ace it reports as 0). -/
theorem c4_mc_state_mismatch :
    mc_state ⟨[], [⟨.A, .spades⟩, ⟨.five, .hearts⟩, ⟨.nine, .diamonds⟩],
        [⟨.J, .spades⟩, ⟨.four, .clubs⟩]⟩
      = .ok (15, Rank.J, true)
    ∧ claimed_state ⟨[], [⟨.A, .spades⟩, ⟨.five, .hearts⟩, ⟨.nine, .diamonds⟩],
        [⟨.J, .spades⟩, ⟨.four, .clubs⟩]⟩
      = .ok (15, 10, 0)
    ∧ claimed_usable_ace
        [(⟨.A, .spades⟩ : Card), ⟨.five, .hearts⟩, ⟨.nine, .diamonds⟩] = 0
    ∧ hand_value [(⟨.A, .spades⟩ : Card), ⟨.five, .hearts⟩] = 16
    ∧ claimed_usable_ace [(⟨.A, .spades⟩ : Card), ⟨.five, .hearts⟩] = 1
    ∧ has_usable_ace [(⟨.A, .spades⟩ : Card), ⟨.five, .hearts⟩] = 0 := by
  refine ⟨by decide, by decide, by decide, by decide, by decide, by decide⟩

theorem getQ_setQ_self (l : List (String × ℚ)) (k : String) (v : ℚ) :
    getQ (setQ l k v) k = some v := by
  induction l with
  | nil => simp [setQ, getQ]
  | cons p t ih =>
    obtain ⟨k1, v1⟩ := p
    by_cases h : k1 = k
    · simp [setQ, h, getQ]
    · simp [setQ, h, getQ, ih]

theorem setQ_ne_nil (l : List (String × ℚ)) (k : String) (v : ℚ) :
    setQ l k v ≠ [] := by
  cases l with
  | nil => simp [setQ]
  | cons p t =>
    obtain ⟨k1, v1⟩ := p
    unfold setQ
    split_ifs <;> simp

theorem maxFrom_mem : ∀ (l : List (String × ℚ)) (b : String × ℚ),
    maxFrom b l ∈ b :: l := by
  intro l
  induction l with
  | nil => intro b; simp [maxFrom]
  | cons x xs ih =>
    intro b
    unfold maxFrom
    by_cases h : b.2 < x.2
    · rw [if_pos h]
      rcases List.mem_cons.mp (ih x) with h1 | h1
      · rw [h1]; simp
      · simp [h1]
    · rw [if_neg h]
      rcases List.mem_cons.mp (ih b) with h1 | h1
      · rw [h1]; simp
      · simp [h1]

theorem maxFrom_le : ∀ (l : List (String × ℚ)) (b : String × ℚ),
    ∀ p ∈ b :: l, p.2 ≤ (maxFrom b l).2 := by
  intro l
  induction l with
  | nil =>
    intro b p hp
    rw [List.mem_singleton.mp hp]
    simp [maxFrom]
  | cons x xs ih =>
    intro b p hp
    unfold maxFrom
    by_cases h : b.2 < x.2
    · rw [if_pos h]
      rcases List.mem_cons.mp hp with h1 | h1
      · rw [h1]
        exact le_of_lt (lt_of_lt_of_le h (ih x x (List.mem_cons_self x xs)))
      · exact ih x p h1
    · rw [if_neg h]
      rcases List.mem_cons.mp hp with h1 | h1
      · rw [h1]
        exact ih b b (List.mem_cons_self b xs)
      · rcases List.mem_cons.mp h1 with h2 | h2
        · rw [h2]
          exact le_trans (not_lt.mp h) (ih b b (List.mem_cons_self b xs))
        · exact ih b p (List.mem_cons.mpr (Or.inr h2))

theorem mem_keys_setQ {x : String} : ∀ (l : List (String × ℚ)) (k : String)
    (v : ℚ), x ∈ (setQ l k v).map Prod.fst → x ∈ l.map Prod.fst ∨ x = k := by
  intro l
  induction l with
  | nil => intro k v h; simp [setQ] at h; exact Or.inr h
  | cons p t ih =>
    intro k v h
    obtain ⟨k1, v1⟩ := p
    by_cases hk : k1 = k
    · simp [setQ, hk] at h
      rcases h with h | h
      · exact Or.inl (by simp [h, hk])
      · exact Or.inl (by simp [h])
    · simp [setQ, hk] at h
      rcases h with h | h
      · exact Or.inl (by simp [h])
      · rcases ih k v (by simpa using h) with h1 | h1
        · exact Or.inl (by simp; exact Or.inr (by simpa using h1))
        · exact Or.inr h1

theorem setQ_keys_nodup {l : List (String × ℚ)} {k : String} {v : ℚ}
    (h : (l.map Prod.fst).Nodup) : ((setQ l k v).map Prod.fst).Nodup := by
  induction l with
  | nil => simp [setQ]
  | cons p t ih =>
    obtain ⟨k1, v1⟩ := p
    simp only [List.map_cons, List.nodup_cons] at h
    by_cases hk : k1 = k
    · simp [setQ, hk]
      exact ⟨by simpa [hk] using h.1, h.2⟩
    · simp only [setQ, hk, if_false, List.map_cons, List.nodup_cons]
      refine ⟨?_, ih h.2⟩
      intro hmem
      rcases mem_keys_setQ t k v hmem with h1 | h1
      · exact h.1 h1
      · exact hk h1

theorem getQ_of_mem_nodup : ∀ {l : List (String × ℚ)} {k : String} {v : ℚ},
    (l.map Prod.fst).Nodup → (k, v) ∈ l → getQ l k = some v := by
  intro l
  induction l with
  | nil => intro k v _ hm; simp at hm
  | cons p t ih =>
    intro k v hnd hm
    obtain ⟨k1, v1⟩ := p
    simp only [List.map_cons, List.nodup_cons] at hnd
    by_cases h : k1 = k
    · rcases List.mem_cons.mp hm with h1 | h1
      · simp [getQ, h]
        exact ((Prod.mk.injEq _ _ _ _).mp h1).2.symm
      · exact absurd (by simpa [h] using List.mem_map_of_mem Prod.fst h1)
          hnd.1
    · rcases List.mem_cons.mp hm with h1 | h1
      · exact absurd (congrArg Prod.fst h1.symm) h
      · simp [getQ, h]
        exact ih hnd.2 h1

/-- C2: for every training episode, the terminal signal `G` is +1 exactly
on `win` and −1 otherwise (draw and loss alike); the episode update is the
in-order per-pair loop, and each per-pair step appends `G` to that pair's
return history, overwrites `Q[state][action]` with the exact mean of that
history, and points the policy at an action of maximal stored value. -/
theorem c2_mc_episode_update (A : MCAgent) (episode : List (MCState × String))
    (result : String) (s : MCState) (a : String)
    (hA : ((A.Q s).map Prod.fst).Nodup) :
    (result = "win" → mcG result = 1)
    ∧ (result ≠ "win" → mcG result = -1)
    ∧ mc_train_episode A episode result
        = episode.foldl (fun b sa => mc_update_pair (mcG result) b sa) A
    ∧ (mc_update_pair (mcG result) A (s, a)).ret (s, a)
        = A.ret (s, a) ++ [mcG result]
    ∧ getQ ((mc_update_pair (mcG result) A (s, a)).Q s) a
        = some ((((A.ret (s, a) ++ [mcG result]).sum : ℤ) : ℚ)
            / (((A.ret (s, a) ++ [mcG result]).length : ℕ) : ℚ))
    ∧ ∃ pol : String, (mc_update_pair (mcG result) A (s, a)).policy s
          = some pol
        ∧ is_max_action ((mc_update_pair (mcG result) A (s, a)).Q s) pol := by
  refine ⟨?_, ?_, rfl, ?_, ?_, ?_⟩
  · intro h; simp [mcG, h]
  · intro h; simp [mcG, h]
  · simp [mc_update_pair]
  · simp only [mc_update_pair, if_pos rfl]
    exact getQ_setQ_self _ _ _
  · cases hl : setQ (A.Q s) a
        (((A.ret (s, a) ++ [mcG result]).sum : ℚ)
          / (((A.ret (s, a) ++ [mcG result]).length : ℕ) : ℚ)) with
    | nil => exact absurd hl (setQ_ne_nil _ _ _)
    | cons x xs =>
      refine ⟨(maxFrom x xs).1, ?_, ?_⟩
      · simp only [mc_update_pair, if_pos rfl, max_key, hl, if_true]
      · have hmem : maxFrom x xs ∈ x :: xs := maxFrom_mem xs x
        have hnd : ((setQ (A.Q s) a
            (((A.ret (s, a) ++ [mcG result]).sum : ℚ)
              / (((A.ret (s, a) ++ [mcG result]).length : ℕ) : ℚ))).map
            Prod.fst).Nodup :=
          setQ_keys_nodup hA
        rw [hl] at hnd
        refine ⟨(maxFrom x xs).2, ?_, ?_⟩
        · simp only [mc_update_pair, if_pos rfl, hl]
          exact getQ_of_mem_nodup hnd hmem
        · intro p hp
          simp only [mc_update_pair, if_pos rfl, hl] at hp
          exact maxFrom_le xs x p hp

/-- Witness for C2: the per-pair update applied to the fresh agent, an
episode that lost, and the pair state (12, J, no-ace) with action hit. -/
theorem c2_mc_episode_update_witness :
    (mc_update_pair (mcG "loss") MCAgent.init
        ((12, Rank.J, false), "hit")).ret ((12, Rank.J, false), "hit")
      = MCAgent.init.ret ((12, Rank.J, false), "hit") ++ [mcG "loss"]
    ∧ ∃ pol : String,
        (mc_update_pair (mcG "loss") MCAgent.init
            ((12, Rank.J, false), "hit")).policy (12, Rank.J, false)
          = some pol
        ∧ is_max_action
            ((mc_update_pair (mcG "loss") MCAgent.init
                ((12, Rank.J, false), "hit")).Q (12, Rank.J, false)) pol := by
  have h := c2_mc_episode_update MCAgent.init [] "loss" (12, Rank.J, false)
    "hit" (by simp [MCAgent.init])
  exact ⟨h.2.2.2.1, h.2.2.2.2.2⟩

theorem round_half_even_small {episodes : ℕ} (h1 : 1 ≤ episodes)
    (h50 : episodes ≤ 50) :
    round_half_even ((episodes : ℚ) / 100) = 0 := by
  have he : ((episodes : ℚ)) ≤ 50 := by exact_mod_cast h50
  have he1 : (1 : ℚ) ≤ (episodes : ℚ) := by exact_mod_cast h1
  have hq0 : (0 : ℚ) ≤ (episodes : ℚ) / 100 := by positivity
  have hq2 : (episodes : ℚ) / 100 ≤ 1 / 2 := by
    rw [div_le_div_iff₀ (by norm_num) (by norm_num)]
    linarith
  have hfloor : ⌊(episodes : ℚ) / 100⌋ = 0 :=
    Int.floor_eq_zero_iff.mpr ⟨hq0, lt_of_le_of_lt hq2 (by norm_num)⟩
  unfold round_half_even
  rw [hfloor]
  by_cases hlt : (episodes : ℚ) / 100 - ((0 : ℤ) : ℚ) < 1 / 2
  · rw [if_pos hlt]
  · rw [if_neg hlt, if_neg (by push_cast; linarith), if_pos (by norm_num)]

theorem deal_card_ok_of_ne {g : BlackjackGame} (h : g.deck ≠ []) :
    ∃ c g1, deal_card g = .ok (c, g1)
      ∧ g1.deck.length = g.deck.length - 1
      ∧ g1.player_hand = g.player_hand ∧ g1.dealer_hand = g.dealer_hand := by
  unfold deal_card
  cases hl : g.deck.getLast? with
  | none => exact absurd (by simpa using hl) h
  | some c =>
    exact ⟨c, _, rfl, by simp [List.length_dropLast], rfl, rfl⟩

theorem start_game_ok {g : BlackjackGame} (h : 4 ≤ g.deck.length) :
    ∃ g1, start_game g = .ok g1 := by
  obtain ⟨c1, ga, hd1, hl1, _, _⟩ := deal_card_ok_of_ne
    (g := g) (by intro hn; rw [hn] at h; simp at h)
  obtain ⟨c2, gb, hd2, hl2, _, _⟩ := deal_card_ok_of_ne
    (g := ga) (by intro hn; rw [hn] at hl1; simp at hl1; omega)
  obtain ⟨c3, gc, hd3, hl3, _, _⟩ := deal_card_ok_of_ne
    (g := gb) (by intro hn; rw [hn] at hl2; simp at hl2; omega)
  obtain ⟨c4, gd, hd4, _, _, _⟩ := deal_card_ok_of_ne
    (g := gc) (by intro hn; rw [hn] at hl3; simp at hl3; omega)
  unfold start_game
  simp only [hd1, hd2, hd3, hd4]
  exact ⟨_, rfl⟩

/-- C10: for every episode count between 1 and 50, both agents' `train`
computes `one_percent = round(episodes / 100) = 0` (Python rounds half to
even, so even 50 gives 0) and the first iteration's progress check
`ep % one_percent` at `ep = 0` raises `ZeroDivisionError` — before any
episode has been processed. -/
theorem c10_small_train_div_zero (firstHit : ℕ → Bool)
    (decks : ℕ → List Card) (alpha gamma epsilon : ℚ) (u : ℕ → ℕ → ℚ)
    (randHit : ℕ → ℕ → Bool) (episodes : ℕ)
    (hdeck : ∀ n, (decks n).Perm generate_deck)
    (h1 : 1 ≤ episodes) (h50 : episodes ≤ 50) :
    round_half_even ((episodes : ℚ) / 100) = 0
    ∧ pymod 0 (round_half_even ((episodes : ℚ) / 100))
        = .error "ZeroDivisionError"
    ∧ mc_train firstHit decks episodes = .error "ZeroDivisionError"
    ∧ ql_train alpha gamma epsilon u randHit decks episodes
        = .error "ZeroDivisionError" := by
  have hr := round_half_even_small h1 h50
  have hlen : 4 ≤ (decks 0).length := by
    rw [(hdeck 0).length_eq]
    decide
  obtain ⟨g1, hsg⟩ := start_game_ok (g := ⟨decks 0, [], []⟩)
    (by simpa using hlen)
  refine ⟨hr, by rw [hr]; rfl, ?_, ?_⟩
  · unfold mc_train
    rw [hr, mc_train_go, if_pos (show 0 < episodes by omega), hsg]
    rfl
  · unfold ql_train
    rw [hr, ql_train_go, if_pos (show 0 < episodes by omega), hsg]
    rfl

/-- Witness for C10: training for exactly 50 episodes on unshuffled decks
fails with the division-by-zero error in both agents. -/
theorem c10_small_train_div_zero_witness :
    mc_train (fun _ => true) (fun _ => generate_deck) 50
        = .error "ZeroDivisionError"
    ∧ ql_train (1 / 10) (9 / 10) (1 / 10) (fun _ _ => 0) (fun _ _ => true)
        (fun _ => generate_deck) 50 = .error "ZeroDivisionError" := by
  have h := c10_small_train_div_zero (fun _ => true) (fun _ => generate_deck)
    (1 / 10) (9 / 10) (1 / 10) (fun _ _ => 0) (fun _ _ => true) 50
    (fun _ => List.Perm.refl _) (by norm_num) (by norm_num)
  exact ⟨h.2.2.1, h.2.2.2⟩
